import Mathlib

/-!
Verification of the xgi core: the encapsulation-DAG analyzer and the
random/flag simplicial-complex generators.

The generator file `xgi/generators/simplicial_complexes.py` is embedded
directly from its source.  The encapsulation analyzer, the
`SimplicialComplex` builder, the `subfaces` utility, the triangle finder
and the random-number generator are repository components whose code is
not part of the sources provided (only their tests and callers are);
those are modelled from the specification, and each such definition is
marked `Modelled from the spec:` in its doc comment.
-/

/-! ## Random streams

Randomness is embedded as an explicit stream of rationals: position `i`
of the stream is the value of the `i`-th draw of `random.random()` /
`np.random.random`. -/

/-- A stream of random draws, one rational per draw index. -/
def RandStream : Type := ℕ → ℚ

/-- Modelled from the spec: random-number generation is "treated as a
seedable uniform sampler"; `seededStream s` is the deterministic stream
of draws produced after seeding the sampler with `s`.  Values lie in
`[0, 1)`. -/
def seededStream (s : ℕ) : RandStream :=
  fun i => mkRat (((s + i) * 7 + 3) % 10) 10

/-- Modelled from the spec: `random.seed(seed)` / `np.random.seed(seed)`
replaces the global draw stream when a seed is supplied and leaves it
unchanged otherwise. -/
def seedStream (seed : Option ℕ) (g : RandStream) : RandStream :=
  match seed with
  | some s => seededStream s
  | none => g

/-! ## Encapsulation analyzer

Modelled from the spec (§4.5): the analyzer's source is not among the
provided files, only its test file is.  A hypergraph is a finite set of
edge-ids together with the node-set of each edge (plus a node set, which
the analyzer never reads). -/

/-- Modelled from the spec: the hypergraph input of the analyzer, "a
mapping from edge-id to node-set, with no downward-closure requirement".
The `nodes` field records the hypergraph's own nodes; the analyzer only
reads `edgeIds` and `members`. -/
structure EncapHypergraph where
  nodes : Finset ℕ
  edgeIds : Finset ℕ
  members : ℕ → Finset ℕ

/-- The three relation semantics accepted by the analyzer. -/
inductive EncapRel where
  | inclusion
  | immediate
  | empirical

/-- A directed graph: the analyzer's output type. -/
structure EncapDag where
  verts : Finset ℕ
  arcs : Finset (ℕ × ℕ)

/-- Modelled from the spec: "inclusion" arcs, one arc `e1 → e2` for
every pair of edge-ids with `node-set(e1) ⊊ node-set(e2)` (direction:
encapsulated → encapsulator). -/
def inclusionArcs (H : EncapHypergraph) : Finset (ℕ × ℕ) :=
  (H.edgeIds ×ˢ H.edgeIds).filter (fun q => H.members q.1 ⊂ H.members q.2)

/-- Modelled from the spec: "immediate" arcs, the covering pairs of the
inclusion relation — arcs `e1 → e2` such that no edge `e3` satisfies
`node-set(e1) ⊊ node-set(e3) ⊊ node-set(e2)`. -/
def immediateArcs (H : EncapHypergraph) : Finset (ℕ × ℕ) :=
  (inclusionArcs H).filter
    (fun q => ¬ ∃ e3 ∈ H.edgeIds,
      H.members q.1 ⊂ H.members e3 ∧ H.members e3 ⊂ H.members q.2)

/-- Modelled from the spec: "empirical" arcs, inclusion pairs `e1 → e2`
such that no other edge `e3` encapsulates `e1` while being itself
encapsulated by `e2` and of strictly smaller size than `e2`. -/
def empiricalArcs (H : EncapHypergraph) : Finset (ℕ × ℕ) :=
  (inclusionArcs H).filter
    (fun q => ¬ ∃ e3 ∈ H.edgeIds,
      H.members q.1 ⊂ H.members e3 ∧ H.members e3 ⊂ H.members q.2 ∧
        (H.members e3).card < (H.members q.2).card)

/-- Modelled from the spec: `to_encapsulation_dag(H, relations)`.  The
DAG's nodes are exactly the edge-ids of the input hypergraph; its arcs
follow the selected relation semantics. -/
def to_encapsulation_dag (H : EncapHypergraph) (relations : EncapRel) : EncapDag :=
  { verts := H.edgeIds
    arcs :=
      match relations with
      | EncapRel.inclusion => inclusionArcs H
      | EncapRel.immediate => immediateArcs H
      | EncapRel.empirical => empiricalArcs H }

/-! ### Membership lemmas for the arc sets -/

theorem mem_inclusionArcs {H : EncapHypergraph} {a b : ℕ} :
    (a, b) ∈ inclusionArcs H ↔
      a ∈ H.edgeIds ∧ b ∈ H.edgeIds ∧ H.members a ⊂ H.members b := by
  simp [inclusionArcs, Finset.mem_filter, Finset.mem_product, and_assoc]

theorem mem_immediateArcs {H : EncapHypergraph} {a b : ℕ} :
    (a, b) ∈ immediateArcs H ↔
      (a ∈ H.edgeIds ∧ b ∈ H.edgeIds ∧ H.members a ⊂ H.members b) ∧
        ¬ ∃ e3 ∈ H.edgeIds, H.members a ⊂ H.members e3 ∧ H.members e3 ⊂ H.members b := by
  rw [immediateArcs, Finset.mem_filter, mem_inclusionArcs]

/-- Reachability step relation of the immediate DAG. -/
def immediateStep (H : EncapHypergraph) (a b : ℕ) : Prop :=
  (a, b) ∈ immediateArcs H

/-- Any strict containment between edges of `H` is reached by a chain of
immediate (covering) arcs; proved by strong induction on the difference
of node-set cardinalities. -/
theorem transGen_of_inclusion_aux (H : EncapHypergraph) :
    ∀ k a b, a ∈ H.edgeIds → b ∈ H.edgeIds → H.members a ⊂ H.members b →
      (H.members b).card - (H.members a).card ≤ k →
      Relation.TransGen (immediateStep H) a b := by
  intro k
  induction k with
  | zero =>
    intro a b _ _ hab hk
    have hlt : (H.members a).card < (H.members b).card := Finset.card_lt_card hab
    omega
  | succ k ih =>
    intro a b ha hb hab hk
    by_cases hcov : ∃ e3 ∈ H.edgeIds, H.members a ⊂ H.members e3 ∧ H.members e3 ⊂ H.members b
    · obtain ⟨c, hc, hac, hcb⟩ := hcov
      have h1 : (H.members a).card < (H.members c).card := Finset.card_lt_card hac
      have h2 : (H.members c).card < (H.members b).card := Finset.card_lt_card hcb
      have t1 : Relation.TransGen (immediateStep H) a c := ih a c ha hc hac (by omega)
      have t2 : Relation.TransGen (immediateStep H) c b := ih c b hc hb hcb (by omega)
      exact t1.trans t2
    · exact Relation.TransGen.single (mem_immediateArcs.mpr ⟨⟨ha, hb, hab⟩, hcov⟩)

/-- C1. For every hypergraph `H`, the transitive closure of the
"immediate" DAG's arc set coincides with the arc set of the "inclusion"
DAG: the two DAGs have the same reachability relation. -/
theorem encapsulation_dag_transitive_closure_eq (H : EncapHypergraph) (a b : ℕ) :
    Relation.TransGen
        (fun x y => (x, y) ∈ (to_encapsulation_dag H EncapRel.immediate).arcs) a b ↔
      (a, b) ∈ (to_encapsulation_dag H EncapRel.inclusion).arcs := by
  show Relation.TransGen (immediateStep H) a b ↔ (a, b) ∈ inclusionArcs H
  constructor
  · intro h
    induction h with
    | single h =>
      exact mem_inclusionArcs.mpr (mem_immediateArcs.mp h).1
    | tail _ h ih =>
      obtain ⟨ha, _, hab⟩ := mem_inclusionArcs.mp ih
      obtain ⟨⟨_, hc, hbc⟩, _⟩ := mem_immediateArcs.mp h
      exact mem_inclusionArcs.mpr ⟨ha, hc, hab.trans hbc⟩
  · intro h
    obtain ⟨ha, hb, hab⟩ := mem_inclusionArcs.mp h
    exact transGen_of_inclusion_aux H ((H.members b).card - (H.members a).card)
      a b ha hb hab le_rfl

/-- C2. In the inclusion-mode DAG, every strict containment between two
edges produces the arc encapsulated → encapsulator, and two incomparable
edges have no arc between them in either direction. -/
theorem inclusion_dag_arcs_characterization (H : EncapHypergraph) (e1 e2 : ℕ)
    (h1 : e1 ∈ H.edgeIds) (h2 : e2 ∈ H.edgeIds) :
    (H.members e1 ⊂ H.members e2 →
      (e1, e2) ∈ (to_encapsulation_dag H EncapRel.inclusion).arcs) ∧
    (¬ H.members e1 ⊆ H.members e2 → ¬ H.members e2 ⊆ H.members e1 →
      (e1, e2) ∉ (to_encapsulation_dag H EncapRel.inclusion).arcs ∧
        (e2, e1) ∉ (to_encapsulation_dag H EncapRel.inclusion).arcs) := by
  constructor
  · intro hss
    exact mem_inclusionArcs.mpr ⟨h1, h2, hss⟩
  · intro h12 h21
    constructor
    · intro hmem
      exact h12 (mem_inclusionArcs.mp hmem).2.2.subset
    · intro hmem
      exact h21 (mem_inclusionArcs.mp hmem).2.2.subset

/-- Concrete hypergraph for the C2 witness: `e2` (id 0) strictly
contains `e1` (id 1) and `e3` (id 2), while `e1` and `e3` are
incomparable. -/
def witnessHypergraph : EncapHypergraph :=
  { nodes := {1, 2, 3}
    edgeIds := {0, 1, 2}
    members := fun i => if i = 0 then {1, 2, 3} else if i = 1 then {1, 2} else {2, 3} }

theorem inclusion_dag_arcs_characterization_witness :
    (1, 0) ∈ (to_encapsulation_dag witnessHypergraph EncapRel.inclusion).arcs ∧
    (1, 2) ∉ (to_encapsulation_dag witnessHypergraph EncapRel.inclusion).arcs ∧
    (2, 1) ∉ (to_encapsulation_dag witnessHypergraph EncapRel.inclusion).arcs := by
  refine ⟨?_, ?_, ?_⟩
  · exact (inclusion_dag_arcs_characterization witnessHypergraph 1 0
      (by decide) (by decide)).1 (by decide)
  · exact ((inclusion_dag_arcs_characterization witnessHypergraph 1 2
      (by decide) (by decide)).2 (by decide) (by decide)).1
  · exact ((inclusion_dag_arcs_characterization witnessHypergraph 1 2
      (by decide) (by decide)).2 (by decide) (by decide)).2

/-- C3. For every hypergraph and every relations mode, the DAG's node
set is exactly the hypergraph's set of edge-ids; in particular a
hypergraph with no edges (whatever its node set) yields a DAG with zero
nodes and zero arcs. -/
theorem encapsulation_dag_nodes_are_edge_ids (H : EncapHypergraph) (r : EncapRel) :
    (to_encapsulation_dag H r).verts = H.edgeIds ∧
      (H.edgeIds = ∅ →
        (to_encapsulation_dag H r).verts = ∅ ∧ (to_encapsulation_dag H r).arcs = ∅) := by
  constructor
  · rfl
  · intro hempty
    refine ⟨hempty, ?_⟩
    have harc : inclusionArcs H = ∅ := by
      rw [inclusionArcs, hempty]
      simp
    cases r with
    | inclusion => exact harc
    | immediate =>
      show immediateArcs H = ∅
      rw [immediateArcs, harc]
      rfl
    | empirical =>
      show empiricalArcs H = ∅
      rw [empiricalArcs, harc]
      rfl

theorem encapsulation_dag_nodes_are_edge_ids_witness :
    (to_encapsulation_dag ⟨{0, 1, 2}, ∅, fun _ => ∅⟩ EncapRel.inclusion).verts = ∅ ∧
      (to_encapsulation_dag ⟨{0, 1, 2}, ∅, fun _ => ∅⟩ EncapRel.inclusion).arcs = ∅ :=
  ((encapsulation_dag_nodes_are_edge_ids ⟨{0, 1, 2}, ∅, fun _ => ∅⟩
    EncapRel.inclusion).2 rfl)

/-- C8. For every hypergraph, the inclusion-mode DAG has at least as
many arcs as the immediate-mode DAG and at least as many arcs as the
empirical-mode DAG. -/
theorem encapsulation_dag_arc_count_ordering (H : EncapHypergraph) :
    (to_encapsulation_dag H EncapRel.immediate).arcs.card ≤
        (to_encapsulation_dag H EncapRel.inclusion).arcs.card ∧
      (to_encapsulation_dag H EncapRel.empirical).arcs.card ≤
        (to_encapsulation_dag H EncapRel.inclusion).arcs.card := by
  constructor
  · exact Finset.card_le_card (Finset.filter_subset _ _)
  · exact Finset.card_le_card (Finset.filter_subset _ _)

/-! ## Listing the subsets of a finite set

`Finset.toList` and `Finset.sort` are not kernel-reducible, so the
elements of a finite set of naturals are enumerated by filtering an
initial segment of the naturals, and subsets by taking sublists. -/

/-- The elements of `s` in increasing order, as a list. -/
def elemList (s : Finset ℕ) : List ℕ :=
  (List.range (s.sup id + 1)).filter (fun a => decide (a ∈ s))

theorem mem_elemList {a : ℕ} {s : Finset ℕ} : a ∈ elemList s ↔ a ∈ s := by
  constructor
  · intro h
    exact of_decide_eq_true (List.mem_filter.mp h).2
  · intro h
    refine List.mem_filter.mpr ⟨List.mem_range.mpr ?_, decide_eq_true h⟩
    have hle : a ≤ s.sup id := Finset.le_sup (f := id) h
    omega

theorem elemList_nodup (s : Finset ℕ) : (elemList s).Nodup :=
  List.Nodup.filter _ (List.nodup_range _)

theorem elemList_sorted (s : Finset ℕ) : List.Sorted (· ≤ ·) (elemList s) :=
  List.Pairwise.filter _ (List.sorted_le_range _)

theorem elemList_sublist_of_subset {t s : Finset ℕ} (h : t ⊆ s) :
    List.Sublist (elemList t) (elemList s) :=
  List.sublist_of_subperm_of_sorted
    (List.subperm_of_subset (elemList_nodup t)
      (fun _a ha => mem_elemList.mpr (h (mem_elemList.mp ha))))
    (elemList_sorted t) (elemList_sorted s)

theorem elemList_toFinset (s : Finset ℕ) : (elemList s).toFinset = s :=
  Finset.ext (fun _a => by rw [List.mem_toFinset, mem_elemList])

/-- The subsets of `s`, listed as the sublists of its element list. -/
def subsetsList (s : Finset ℕ) : List (Finset ℕ) :=
  ((elemList s).sublists).map List.toFinset

theorem mem_subsetsList {t s : Finset ℕ} : t ∈ subsetsList s ↔ t ⊆ s := by
  constructor
  · intro h
    obtain ⟨l, hl, rfl⟩ := List.mem_map.mp h
    intro a ha
    exact mem_elemList.mp ((List.mem_sublists.mp hl).subset (List.mem_toFinset.mp ha))
  · intro h
    refine List.mem_map.mpr ⟨elemList t, ?_, elemList_toFinset t⟩
    exact List.mem_sublists.mpr (elemList_sublist_of_subset h)

/-! ## Simplicial-complex builder

The `SimplicialComplex` container class is not among the provided
sources; its insertion behavior is modelled from the spec (§4.3). -/

/-- Modelled from the spec: all non-empty subsets of a simplex,
including the simplex itself — the faces produced by recursively adding
subfaces at insertion time. -/
def closureOf (s : Finset ℕ) : Finset (Finset ℕ) :=
  s.powerset.filter (fun t => t ≠ ∅)

/-- Modelled from the spec: the top simplices actually inserted for one
input simplex — if `max_order` is set and the simplex order exceeds it,
the subfaces of order exactly `max_order` replace the simplex. -/
def topsOf (mo : Option ℕ) (s : Finset ℕ) : List (Finset ℕ) :=
  match mo with
  | none => [s]
  | some m =>
    if m + 1 < s.card then (subsetsList s).filter (fun t => decide (t.card = m + 1))
    else [s]

/-- Modelled from the spec: the set of simplices present after
`add_simplices_from(l, max_order=mo)` on a fresh complex — every
inserted top simplex together with all of its non-empty subfaces. -/
def addSimplicesF (l : List (Finset ℕ)) (mo : Option ℕ) : Finset (Finset ℕ) :=
  (l.flatMap (topsOf mo)).foldr (fun s acc => closureOf s ∪ acc) ∅

/-- Python-level errors raised by the generators. -/
inductive PyErr where
  | valueError
  | typeError
  | xgiError
deriving DecidableEq

/-- The observable result of a generator call: the node set and the set
of simplices of the returned complex. -/
structure SimComplex where
  nodes : Finset ℕ
  simplices : Finset (Finset ℕ)

instance : DecidableEq SimComplex := fun x y =>
  decidable_of_iff (x.nodes = y.nodes ∧ x.simplices = y.simplices) (by
    cases x
    cases y
    simp)

/-- A generator call either returns a complex or raises. -/
inductive PyResult where
  | ok : SimComplex → PyResult
  | err : PyErr → PyResult

instance : DecidableEq PyResult := fun x y =>
  match x, y with
  | PyResult.ok a, PyResult.ok b => decidable_of_iff (a = b) (by simp)
  | PyResult.ok _, PyResult.err _ => isFalse (fun h => PyResult.noConfusion h)
  | PyResult.err _, PyResult.ok _ => isFalse (fun h => PyResult.noConfusion h)
  | PyResult.err e, PyResult.err f => decidable_of_iff (e = f) (by simp)

/-- Assemble the returned complex: the explicitly added nodes together
with every node of every simplex, plus the simplex set. -/
def mkComplex (explicit : Finset ℕ) (simps : Finset (Finset ℕ)) : SimComplex :=
  ⟨explicit ∪ simps.sup id, simps⟩

/-! ## Combinatorial utilities from the source -/

/-- `itertools.combinations` over a list: all sublists of length `k` in
lexicographic order of positions. -/
def combos : List ℕ → ℕ → List (List ℕ)
  | _, 0 => [[]]
  | [], _ + 1 => []
  | x :: xs, k + 1 => (combos xs k).map (fun c => x :: c) ++ combos xs (k + 1)

/-- Keep each element of the list independently, pairing the element at
position `j` with draw `off + j` of the stream and keeping it when the
draw is `≤ p` — the embedding of `[el for el in l if random.random() <= p]`
and of boolean masks drawn with `np.random.random`. -/
def keepByDraws {α : Type} (g : RandStream) (p : ℚ) : ℕ → List α → List α
  | _, [] => []
  | off, c :: rest =>
    if g off ≤ p then c :: keepByDraws g p (off + 1) rest
    else keepByDraws g p (off + 1) rest

/-- Python's `l[:j]` for an integer bound `j`, including the negative
case (`l[:-1]` drops the last element). -/
def pySliceTo (l : List ℚ) (j : ℤ) : List ℚ :=
  if 0 ≤ j then l.take j.toNat else l.take (l.length - min l.length (-j).toNat)

/-! ## Graph inputs -/

/-- A simple graph as the generators see it: a node set and a list of
edges, each edge a node-set. -/
structure SGraph where
  nodes : Finset ℕ
  edges : List (Finset ℕ)

/-- A set of nodes of `G` that are pairwise adjacent. -/
def isClique (G : SGraph) (c : Finset ℕ) : Prop :=
  c ⊆ G.nodes ∧ ∀ u ∈ c, ∀ v ∈ c, u ≠ v → ({u, v} : Finset ℕ) ∈ G.edges

instance (G : SGraph) (c : Finset ℕ) : Decidable (isClique G c) :=
  inferInstanceAs (Decidable (c ⊆ G.nodes ∧
    ∀ u ∈ c, ∀ v ∈ c, u ≠ v → ({u, v} : Finset ℕ) ∈ G.edges))

/-- Modelled from the spec: the clique adapter `nx.find_cliques`, "a
generic clique-finding routine over a simple graph, returning maximal
cliques as node-sets" — the non-empty cliques to which no further node
of `G` can be added. -/
def maxCliquesList (G : SGraph) : List (Finset ℕ) :=
  (subsetsList G.nodes).filter
    (fun c => decide (c.Nonempty ∧ isClique G c ∧
      ∀ v ∈ G.nodes, v ∉ c → ¬ isClique G (insert v c)))

/-- The edges of `G` as consumed by `add_simplices_from`. -/
def edgeList (G : SGraph) : List (Finset ℕ) :=
  G.edges

/-- Modelled from the spec: `find_triangles`, the "empty triangles" of a
graph — its 3-cliques, treated as candidate 2-simplices. -/
def trianglesList (G : SGraph) : List (Finset ℕ) :=
  (subsetsList G.nodes).filter (fun c => decide (c.card = 3 ∧ isClique G c))

/-- Modelled from the spec: `subfaces(edges, order=m)` — for each input
edge of size `k` all subsets of size `m+1`, deduplicated across input
edges; fails with `InvalidOrder` (modelled as `none`) when `m` exceeds
`k - 1` for some input edge. -/
def pySubfaces (edges : List (Finset ℕ)) (m : ℕ) : Option (List (Finset ℕ)) :=
  if edges.any (fun e => e.card ≤ m) then none
  else some ((edges.flatMap
    (fun e => (subsetsList e).filter (fun t => decide (t.card = m + 1)))).dedup)

/-! ## The generators, translated from
`src/xgi/generators/simplicial_complexes.py` -/

/-- The per-order sampling loop of `random_simplicial_complex`: for the
`i`-th probability (order `d = i + 1`) enumerate all `(d+1)`-node
combinations, keep each with one draw, and accumulate; returns the kept
tuples and the total number of draws consumed. -/
def rscOrderLoop (g : RandStream) (N : ℕ) :
    List ℚ → ℕ → ℕ → List (List ℕ) → List (List ℕ) × ℕ
  | [], _, off, acc => (acc, off)
  | p :: rest, d, off, acc =>
    let pot := combos (List.range N) (d + 1)
    rscOrderLoop g N rest (d + 1) (off + pot.length) (acc ++ keepByDraws g p off pot)

/-- `random_simplicial_complex(N, ps, seed)`: seed, validate `ps`
(raising `ValueError` before any output is constructed), sample each
order, then build the complex over nodes `range N` with full downward
closure. -/
def randomSimplicialComplex (N : ℕ) (ps : List ℚ) (seed : Option ℕ)
    (g : RandStream) : PyResult :=
  let gs := seedStream seed g
  if ∃ p ∈ ps, p < 0 ∨ 1 < p then PyResult.err PyErr.valueError
  else
    PyResult.ok (mkComplex (Finset.range N)
      (addSimplicesF ((rscOrderLoop gs N ps 1 0 []).1.map List.toFinset) none))

/-- The promotion loop of `flag_complex`: for each probability of the
slice (index `i`, simplex order `i + 2`) filter the candidates of size
`i + 3` with one draw each and add the kept ones truncated at
`max_order`; returns the accumulated simplices and the number of draws
consumed. -/
def promoteLoop (g : RandStream) (cands : List (Finset ℕ)) (mo : Option ℕ) :
    List ℚ → ℕ → ℕ → Finset (Finset ℕ) → Finset (Finset ℕ) × ℕ
  | [], _, off, acc => (acc, off)
  | p :: rest, i, off, acc =>
    let cs := cands.filter (fun x => decide (x.card = i + 3))
    promoteLoop g cands mo rest (i + 1) (off + cs.length)
      (acc ∪ addSimplicesF (keepByDraws g p off cs) mo)

/-- `flag_complex(G, max_order, ps, seed)`.  The second component is the
number of promotion draws consumed from the random stream.  With empty
`ps` all maximal cliques are promoted (truncated at `max_order`); with
non-empty `ps` and `max_order = None` the slice `ps[:max_order - 1]`
raises `TypeError`; otherwise the maximal cliques are reduced by
`subfaces` when `max_order` is truthy and promoted order by order. -/
def flagComplex (G : SGraph) (maxOrder : Option ℕ) (ps : List ℚ)
    (seed : Option ℕ) (g : RandStream) : PyResult × ℕ :=
  let gs := seedStream seed g
  let base := addSimplicesF (edgeList G) none
  if ps = [] then
    (PyResult.ok (mkComplex G.nodes (base ∪ addSimplicesF (maxCliquesList G) maxOrder)), 0)
  else
    match maxOrder with
    | none => (PyResult.err PyErr.typeError, 0)
    | some m =>
      match (if m ≠ 0 then pySubfaces (maxCliquesList G) m else some (maxCliquesList G)) with
      | none => (PyResult.err PyErr.xgiError, 0)
      | some cands =>
        let res := promoteLoop gs cands (some m) (pySliceTo ps ((m : ℤ) - 1)) 0 0 ∅
        (PyResult.ok (mkComplex G.nodes (base ∪ res.1)), res.2)

/-- `flag_complex_d2(G, p2, seed)`: nodes and edges of `G`, plus the
empty triangles, each kept with one draw when `p2` is given. -/
def flagComplexD2 (G : SGraph) (p2 : Option ℚ) (seed : Option ℕ)
    (g : RandStream) : PyResult :=
  let gs := seedStream seed g
  let base := addSimplicesF (edgeList G) none
  let kept := match p2 with
    | some p => keepByDraws gs p 0 (trianglesList G)
    | none => trianglesList G
  PyResult.ok (mkComplex G.nodes (base ∪ addSimplicesF kept none))

/-- Modelled from the spec: the Erdős–Rényi graph `G(N, p)` drawn from a
stream — each of the `C(N, 2)` potential edges kept with one draw. -/
def erGraph (N : ℕ) (p : ℚ) (g : RandStream) : SGraph :=
  { nodes := Finset.range N
    edges := (keepByDraws g p 0 (combos (List.range N) 2)).map List.toFinset }

/-- `random_flag_complex_d2(N, p, seed)`: validate `p`, draw the
Erdős–Rényi graph, then `flag_complex_d2` with `p2 = None`. -/
def randomFlagComplexD2 (N : ℕ) (p : ℚ) (seed : Option ℕ)
    (g : RandStream) : PyResult :=
  if p < 0 ∨ 1 < p then PyResult.err PyErr.valueError
  else flagComplexD2 (erGraph N p (seedStream seed g)) none none (seedStream seed g)

/-- `random_flag_complex(N, p, max_order, seed)`: validate `p`, draw the
Erdős–Rényi graph, then add only its maximal cliques (truncated at
`max_order`) — the graph's edges are never added directly. -/
def randomFlagComplex (N : ℕ) (p : ℚ) (maxOrder : Option ℕ) (seed : Option ℕ)
    (g : RandStream) : PyResult :=
  if p < 0 ∨ 1 < p then PyResult.err PyErr.valueError
  else
    PyResult.ok (mkComplex (erGraph N p (seedStream seed g)).nodes
      (addSimplicesF (maxCliquesList (erGraph N p (seedStream seed g))) maxOrder))

/-! ## Basic witnesses' stream -/

/-- An arbitrary ambient random stream used by concrete witnesses. -/
def zeroStream : RandStream := fun _ => 0

/-! ## C5: error behavior of `random_simplicial_complex` -/

/-- C5. `random_simplicial_complex(N, ps, seed)` raises `ValueError`
(the `InvalidProbability` condition) exactly when some entry of `ps` is
strictly below 0 or strictly above 1; in the embedding an error result
carries no complex, matching that the error is raised before any output
complex is constructed. -/
theorem random_simplicial_complex_error_iff (N : ℕ) (ps : List ℚ) (seed : Option ℕ)
    (g : RandStream) :
    randomSimplicialComplex N ps seed g = PyResult.err PyErr.valueError ↔
      ∃ p ∈ ps, p < 0 ∨ 1 < p := by
  by_cases hv : ∃ p ∈ ps, p < 0 ∨ 1 < p
  · simp [randomSimplicialComplex, hv]
  · simp [randomSimplicialComplex, hv]

/-! ## C6: determinism of `random_simplicial_complex` under a seed -/

/-- C6. With a non-`None` seed, `random_simplicial_complex` does not
depend on the ambient state of the global random stream: two calls with
identical arguments return identical complexes, because `np.random.seed`
overwrites the stream before any draw. -/
theorem random_simplicial_complex_deterministic (N : ℕ) (ps : List ℚ) (s : ℕ)
    (g g2 : RandStream) (_hps : ∀ p ∈ ps, 0 ≤ p ∧ p ≤ 1) :
    randomSimplicialComplex N ps (some s) g = randomSimplicialComplex N ps (some s) g2 :=
  rfl

theorem random_simplicial_complex_deterministic_witness :
    (∀ p ∈ [(1 : ℚ)], 0 ≤ p ∧ p ≤ 1) ∧
      randomSimplicialComplex 2 [(1 : ℚ)] (some 0) zeroStream =
        randomSimplicialComplex 2 [(1 : ℚ)] (some 0) (fun _ => 1) :=
  ⟨by decide,
    random_simplicial_complex_deterministic 2 [(1 : ℚ)] 0 zeroStream (fun _ => 1)
      (by decide)⟩

/-! ## C10: `flag_complex` with `max_order=None` and non-empty `ps` -/

/-- C10. For every graph and non-empty `ps`, `flag_complex` with
`max_order = None` fails with `TypeError` (the slice `ps[:max_order - 1]`
subtracts from `None`) before any promotion draw is consumed and never
returns a complex. -/
theorem flag_complex_none_max_order_type_error (G : SGraph) (ps : List ℚ)
    (seed : Option ℕ) (g : RandStream) (h : ps ≠ []) :
    flagComplex G none ps seed g = (PyResult.err PyErr.typeError, 0) := by
  simp [flagComplex, h]

theorem flag_complex_none_max_order_type_error_witness :
    ([(1 : ℚ)] ≠ []) ∧
      flagComplex ⟨∅, []⟩ none [(1 : ℚ)] none zeroStream =
        (PyResult.err PyErr.typeError, 0) :=
  ⟨by decide, flag_complex_none_max_order_type_error ⟨∅, []⟩ [(1 : ℚ)] none zeroStream
    (by decide)⟩

/-! ## Downward closure -/

/-- A simplex set closed under taking non-empty subfaces. -/
def downClosed (S : Finset (Finset ℕ)) : Prop :=
  ∀ s ∈ S, ∀ t ⊆ s, t ≠ ∅ → t ∈ S

theorem downClosed_empty : downClosed ∅ := by
  intro s hs
  exact absurd hs (Finset.not_mem_empty s)

theorem downClosed_union {A B : Finset (Finset ℕ)}
    (hA : downClosed A) (hB : downClosed B) : downClosed (A ∪ B) := by
  intro s hs t hts htne
  rcases Finset.mem_union.mp hs with h | h
  · exact Finset.mem_union_left _ (hA s h t hts htne)
  · exact Finset.mem_union_right _ (hB s h t hts htne)

theorem mem_closureOf {t s : Finset ℕ} : t ∈ closureOf s ↔ t ⊆ s ∧ t ≠ ∅ := by
  simp [closureOf, Finset.mem_filter, Finset.mem_powerset]

theorem mem_foldr_closure {t : Finset ℕ} :
    ∀ L : List (Finset ℕ),
      t ∈ L.foldr (fun s acc => closureOf s ∪ acc) ∅ ↔ ∃ s ∈ L, t ∈ closureOf s := by
  intro L
  induction L with
  | nil => simp
  | cons s rest ih => simp [Finset.mem_union, ih]

theorem mem_addSimplicesF {t : Finset ℕ} {l : List (Finset ℕ)} {mo : Option ℕ} :
    t ∈ addSimplicesF l mo ↔ ∃ s ∈ l.flatMap (topsOf mo), t ⊆ s ∧ t ≠ ∅ := by
  rw [addSimplicesF, mem_foldr_closure]
  simp only [mem_closureOf]

theorem downClosed_addSimplicesF (l : List (Finset ℕ)) (mo : Option ℕ) :
    downClosed (addSimplicesF l mo) := by
  intro s hs t hts htne
  rw [mem_addSimplicesF] at hs ⊢
  obtain ⟨u, hu, hsu, -⟩ := hs
  exact ⟨u, hu, hts.trans hsu, htne⟩

theorem downClosed_promoteLoop (g : RandStream) (cands : List (Finset ℕ))
    (mo : Option ℕ) :
    ∀ (l : List ℚ) (i off : ℕ) (acc : Finset (Finset ℕ)),
      downClosed acc → downClosed (promoteLoop g cands mo l i off acc).1 := by
  intro l
  induction l with
  | nil => intro i off acc h; exact h
  | cons p rest ih =>
    intro i off acc h
    exact ih _ _ _ (downClosed_union h (downClosed_addSimplicesF _ _))

theorem randomSimplicialComplex_downClosed (N : ℕ) (ps : List ℚ) (seed : Option ℕ)
    (g : RandStream) (C : SimComplex)
    (h : randomSimplicialComplex N ps seed g = PyResult.ok C) :
    downClosed C.simplices := by
  by_cases hv : ∃ p ∈ ps, p < 0 ∨ 1 < p
  · simp [randomSimplicialComplex, hv] at h
  · simp only [randomSimplicialComplex, if_neg hv] at h
    injection h with h
    rw [← h]
    exact downClosed_addSimplicesF _ _

theorem flagComplex_downClosed (G : SGraph) (mo : Option ℕ) (ps : List ℚ)
    (seed : Option ℕ) (g : RandStream) (C : SimComplex) (n : ℕ)
    (h : flagComplex G mo ps seed g = (PyResult.ok C, n)) :
    downClosed C.simplices := by
  by_cases hps : ps = []
  · simp only [flagComplex, if_pos hps] at h
    rw [Prod.mk.injEq] at h
    obtain ⟨h1, -⟩ := h
    injection h1 with h1
    rw [← h1]
    exact downClosed_union (downClosed_addSimplicesF _ _) (downClosed_addSimplicesF _ _)
  · cases mo with
    | none => simp [flagComplex, if_neg hps] at h
    | some m =>
      simp only [flagComplex, if_neg hps] at h
      cases hsub : (if m ≠ 0 then pySubfaces (maxCliquesList G) m
          else some (maxCliquesList G)) with
      | none => rw [hsub] at h; simp at h
      | some cands =>
        rw [hsub] at h
        rw [Prod.mk.injEq] at h
        obtain ⟨h1, -⟩ := h
        injection h1 with h1
        rw [← h1]
        exact downClosed_union (downClosed_addSimplicesF _ _)
          (downClosed_promoteLoop _ _ _ _ _ _ _ downClosed_empty)

theorem flagComplexD2_downClosed (G : SGraph) (p2 : Option ℚ) (seed : Option ℕ)
    (g : RandStream) (C : SimComplex)
    (h : flagComplexD2 G p2 seed g = PyResult.ok C) :
    downClosed C.simplices := by
  simp only [flagComplexD2] at h
  injection h with h
  rw [← h]
  exact downClosed_union (downClosed_addSimplicesF _ _) (downClosed_addSimplicesF _ _)

theorem randomFlagComplexD2_downClosed (N : ℕ) (p : ℚ) (seed : Option ℕ)
    (g : RandStream) (C : SimComplex)
    (h : randomFlagComplexD2 N p seed g = PyResult.ok C) :
    downClosed C.simplices := by
  by_cases hv : p < 0 ∨ 1 < p
  · simp [randomFlagComplexD2, hv] at h
  · rw [randomFlagComplexD2, if_neg hv] at h
    exact flagComplexD2_downClosed _ _ _ _ _ h

theorem randomFlagComplex_downClosed (N : ℕ) (p : ℚ) (mo : Option ℕ)
    (seed : Option ℕ) (g : RandStream) (C : SimComplex)
    (h : randomFlagComplex N p mo seed g = PyResult.ok C) :
    downClosed C.simplices := by
  by_cases hv : p < 0 ∨ 1 < p
  · simp [randomFlagComplex, hv] at h
  · rw [randomFlagComplex, if_neg hv] at h
    injection h with h
    rw [← h]
    exact downClosed_addSimplicesF _ _

/-- C9. Every complex returned by any of the five generators is
downward closed: every non-empty subset of a member simplex is itself a
member simplex. -/
theorem generators_downward_closed :
    (∀ N ps seed g C, randomSimplicialComplex N ps seed g = PyResult.ok C →
      downClosed C.simplices) ∧
    (∀ G mo ps seed g C n, flagComplex G mo ps seed g = (PyResult.ok C, n) →
      downClosed C.simplices) ∧
    (∀ G p2 seed g C, flagComplexD2 G p2 seed g = PyResult.ok C →
      downClosed C.simplices) ∧
    (∀ N p seed g C, randomFlagComplexD2 N p seed g = PyResult.ok C →
      downClosed C.simplices) ∧
    (∀ N p mo seed g C, randomFlagComplex N p mo seed g = PyResult.ok C →
      downClosed C.simplices) :=
  ⟨randomSimplicialComplex_downClosed, flagComplex_downClosed, flagComplexD2_downClosed,
    randomFlagComplexD2_downClosed, randomFlagComplex_downClosed⟩

/-! ## C4: `random_flag_complex` versus `flag_complex` with `ps = None` -/

theorem combos_mem {l : List ℕ} :
    ∀ {k : ℕ} {c : List ℕ}, c ∈ combos l k → c.length = k ∧ List.Sublist c l := by
  induction l with
  | nil =>
    intro k c hc
    cases k with
    | zero =>
      simp only [combos, List.mem_singleton] at hc
      subst hc
      exact ⟨rfl, List.Sublist.refl _⟩
    | succ k => simp [combos] at hc
  | cons x xs ih =>
    intro k c hc
    cases k with
    | zero =>
      simp only [combos, List.mem_singleton] at hc
      subst hc
      exact ⟨rfl, List.nil_sublist _⟩
    | succ k =>
      rw [combos, List.mem_append] at hc
      rcases hc with h | h
      · obtain ⟨a, ha, rfl⟩ := List.mem_map.mp h
        obtain ⟨hlen, hsub⟩ := ih ha
        exact ⟨by simp [hlen], List.Sublist.cons₂ x hsub⟩
      · obtain ⟨hlen, hsub⟩ := ih h
        exact ⟨hlen, hsub.cons x⟩

theorem keepByDraws_subset {α : Type} {g : RandStream} {p : ℚ} :
    ∀ {off : ℕ} {l : List α} {x : α}, x ∈ keepByDraws g p off l → x ∈ l := by
  intro off l
  induction l generalizing off with
  | nil => intro x h; simp [keepByDraws] at h
  | cons c rest ih =>
    intro x h
    rw [keepByDraws] at h
    by_cases hd : g off ≤ p
    · rw [if_pos hd] at h
      rcases List.mem_cons.mp h with h | h
      · exact h ▸ List.mem_cons_self _ _
      · exact List.mem_cons_of_mem _ (ih h)
    · rw [if_neg hd] at h
      exact List.mem_cons_of_mem _ (ih h)

theorem erGraph_edges_wf (N : ℕ) (p : ℚ) (g : RandStream) :
    ∀ e ∈ (erGraph N p g).edges, e.card = 2 ∧ e ⊆ (erGraph N p g).nodes := by
  intro e he
  obtain ⟨c, hc, rfl⟩ := List.mem_map.mp he
  obtain ⟨hlen, hsub⟩ := combos_mem (keepByDraws_subset hc)
  have hnd : c.Nodup := List.Nodup.sublist hsub (List.nodup_range N)
  constructor
  · rw [List.toFinset_card_of_nodup hnd, hlen]
  · intro a ha
    exact Finset.mem_range.mpr
      (List.mem_range.mp (hsub.subset (List.mem_toFinset.mp ha)))

theorem mem_maxCliquesList {G : SGraph} {Q : Finset ℕ} :
    Q ∈ maxCliquesList G ↔
      Q ⊆ G.nodes ∧ Q.Nonempty ∧ isClique G Q ∧
        ∀ v ∈ G.nodes, v ∉ Q → ¬ isClique G (insert v Q) := by
  constructor
  · intro h
    have h1 := List.mem_filter.mp h
    obtain ⟨hne, hclq, hmax⟩ := of_decide_eq_true h1.2
    exact ⟨mem_subsetsList.mp h1.1, hne, hclq, hmax⟩
  · intro ⟨h1, h2, h3, h4⟩
    exact List.mem_filter.mpr ⟨mem_subsetsList.mpr h1, decide_eq_true ⟨h2, h3, h4⟩⟩

/-- Every non-empty clique of `G` extends to a maximal clique reported
by the clique adapter. -/
theorem exists_maxClique {G : SGraph} {c : Finset ℕ} (hc : isClique G c)
    (hne : c.Nonempty) : ∃ Q ∈ maxCliquesList G, c ⊆ Q := by
  have hcS : c ∈ G.nodes.powerset.filter (fun q => isClique G q ∧ c ⊆ q) :=
    Finset.mem_filter.mpr ⟨Finset.mem_powerset.mpr hc.1, hc, Finset.Subset.refl c⟩
  obtain ⟨Q, hQS, hQmax⟩ :=
    Finset.exists_max_image (G.nodes.powerset.filter (fun q => isClique G q ∧ c ⊆ q))
      Finset.card ⟨c, hcS⟩
  obtain ⟨hQpow, hQclq, hcQ⟩ := Finset.mem_filter.mp hQS
  refine ⟨Q, mem_maxCliquesList.mpr ⟨Finset.mem_powerset.mp hQpow, hne.mono hcQ, hQclq, ?_⟩, hcQ⟩
  intro v hv hvQ hins
  have hmem : insert v Q ∈ G.nodes.powerset.filter (fun q => isClique G q ∧ c ⊆ q) :=
    Finset.mem_filter.mpr
      ⟨Finset.mem_powerset.mpr hins.1, hins, hcQ.trans (Finset.subset_insert _ _)⟩
  have hle := hQmax _ hmem
  rw [Finset.card_insert_of_not_mem hvQ] at hle
  omega

/-- A 2-element edge of `G` whose endpoints are nodes of `G` is a
clique. -/
theorem edge_isClique {G : SGraph} {e : Finset ℕ} (he : e ∈ G.edges)
    (h2 : e.card = 2) (hsub : e ⊆ G.nodes) : isClique G e := by
  refine ⟨hsub, ?_⟩
  intro u hu v hv huv
  have hsub' : ({u, v} : Finset ℕ) ⊆ e := by
    intro a ha
    rcases Finset.mem_insert.mp ha with rfl | ha'
    · exact hu
    · exact (Finset.mem_singleton.mp ha') ▸ hv
  have hpair : ({u, v} : Finset ℕ) = e :=
    Finset.eq_of_subset_of_card_le hsub' (by rw [h2, Finset.card_pair huv])
  rw [hpair]
  exact he

theorem flatMap_topsOf_none (l : List (Finset ℕ)) : l.flatMap (topsOf none) = l := by
  induction l with
  | nil => rfl
  | cons s rest ih => simp [topsOf, ih]

/-- Everything obtained by closing the graph's edges downward is already
present when the maximal cliques are added with a `max_order` of `None`
or at least 1. -/
theorem edges_part_subset (G : SGraph)
    (hwf : ∀ e ∈ G.edges, e.card = 2 ∧ e ⊆ G.nodes)
    (mo : Option ℕ) (hmo : mo = none ∨ ∃ m, mo = some m ∧ 1 ≤ m) :
    addSimplicesF (edgeList G) none ⊆ addSimplicesF (maxCliquesList G) mo := by
  intro t ht
  rw [mem_addSimplicesF] at ht ⊢
  rw [edgeList, flatMap_topsOf_none] at ht
  obtain ⟨e, he, hte, htne⟩ := ht
  obtain ⟨h2, hsubn⟩ := hwf e he
  have hne : e.Nonempty := Finset.card_pos.mp (by omega)
  obtain ⟨Q, hQ, heQ⟩ := exists_maxClique (edge_isClique he h2 hsubn) hne
  rcases hmo with rfl | ⟨m, rfl, hm⟩
  · rw [flatMap_topsOf_none]
    exact ⟨Q, hQ, hte.trans heQ, htne⟩
  · by_cases hbig : m + 1 < Q.card
    · have hcard1 : e.card ≤ m + 1 := by omega
      have hcard2 : m + 1 ≤ Q.card := by omega
      obtain ⟨C, heC, hCQ, hCcard⟩ :=
        Finset.exists_subsuperset_card_eq heQ hcard1 hcard2
      refine ⟨C, List.mem_flatMap.mpr ⟨Q, hQ, ?_⟩, hte.trans heC, htne⟩
      simp only [topsOf, if_pos hbig]
      exact List.mem_filter.mpr ⟨mem_subsetsList.mpr hCQ, decide_eq_true hCcard⟩
    · refine ⟨Q, List.mem_flatMap.mpr ⟨Q, hQ, ?_⟩, hte.trans heQ, htne⟩
      simp [topsOf, if_neg hbig]

/-- C4 (amended). For `max_order = None` or `max_order ≥ 1`,
`random_flag_complex(N, p, max_order, seed)` returns exactly the complex
of `flag_complex(G, max_order, ps=None)` on the same Erdős–Rényi graph,
although it never adds the graph's edges directly: every edge lies in a
maximal clique, so the cliques' downward closure already contains it.
At `max_order = 0` this fails (see the counterexample). -/
theorem random_flag_complex_eq_flag_complex (N : ℕ) (p : ℚ) (mo : Option ℕ)
    (seed : Option ℕ) (g g2 : RandStream) (hp0 : 0 ≤ p) (hp1 : p ≤ 1)
    (hmo : mo = none ∨ ∃ m, mo = some m ∧ 1 ≤ m) :
    randomFlagComplex N p mo seed g =
      (flagComplex (erGraph N p (seedStream seed g)) mo [] none g2).1 := by
  have hv : ¬ (p < 0 ∨ 1 < p) := by
    intro hcon
    rcases hcon with h | h
    · exact (not_lt.mpr hp0) h
    · exact (not_lt.mpr hp1) h
  rw [randomFlagComplex, if_neg hv]
  simp only [flagComplex, if_pos rfl]
  rw [Finset.union_eq_right.mpr
    (edges_part_subset _ (erGraph_edges_wf N p _) mo hmo)]
  simp

theorem random_flag_complex_eq_flag_complex_witness :
    (0 ≤ (1 : ℚ)) ∧ ((1 : ℚ) ≤ 1) ∧
      randomFlagComplex 3 1 (some 2) (some 0) zeroStream =
        (flagComplex (erGraph 3 1 (seedStream (some 0) zeroStream)) (some 2) [] none
          zeroStream).1 :=
  ⟨by decide, by decide,
    random_flag_complex_eq_flag_complex 3 1 (some 2) (some 0) zeroStream zeroStream
      (by decide) (by decide) (Or.inr ⟨2, rfl, by decide⟩)⟩

/-- C4 counterexample: at `max_order = 0` the two calls differ on the
one-edge graph `G(2, 1)` — `flag_complex` keeps the edge `{0, 1}` as a
simplex while `random_flag_complex` truncates the clique `{0, 1}` to its
vertices. -/
theorem random_flag_complex_ne_flag_complex_at_zero :
    randomFlagComplex 2 1 (some 0) (some 0) zeroStream ≠
      (flagComplex (erGraph 2 1 (seedStream (some 0) zeroStream)) (some 0) [] none
        zeroStream).1 := by
  decide

/-! ## C7: which probabilities drive the promotion loop of `flag_complex` -/

/-- Claim-side promotion loop: iterate the probability index `i` itself
(`fuel` many indices, starting at `i`), keeping each candidate of order
`i + 2` (size `i + 3`) with one draw against `ps[i]` directly. -/
def specPromoteLoop (g : RandStream) (cands : List (Finset ℕ)) (m : ℕ) (ps : List ℚ) :
    ℕ → ℕ → ℕ → Finset (Finset ℕ) → Finset (Finset ℕ) × ℕ
  | 0, _, off, acc => (acc, off)
  | fuel + 1, i, off, acc =>
    specPromoteLoop g cands m ps fuel (i + 1)
      (off + (cands.filter (fun x => decide (x.card = i + 3))).length)
      (acc ∪ addSimplicesF
        (keepByDraws g (ps.getD i 0) off (cands.filter (fun x => decide (x.card = i + 3))))
        (some m))

/-- Claim-side description of `flag_complex` with non-empty `ps` and
`max_order = m ≥ 1`: reduce the maximal cliques to their subfaces of
size `m + 1`, then apply randomized promotion exactly at the probability
indices `i` from `0` to `m - 2` inclusive (and only where a probability
is supplied), keeping each candidate of order `i + 2` with probability
`ps[i]`; entries of `ps` at index `m - 1` or beyond are never read. -/
def flagComplexPsSpec (G : SGraph) (m : ℕ) (ps : List ℚ) (seed : Option ℕ)
    (g : RandStream) : PyResult × ℕ :=
  let gs := seedStream seed g
  let base := addSimplicesF (edgeList G) none
  match pySubfaces (maxCliquesList G) m with
  | none => (PyResult.err PyErr.xgiError, 0)
  | some cands =>
    let res := specPromoteLoop gs cands m ps (min (m - 1) ps.length) 0 0 ∅
    (PyResult.ok (mkComplex G.nodes (base ∪ res.1)), res.2)

theorem getD_take (ps : List ℚ) :
    ∀ (k j : ℕ), j < k → (ps.take k).getD j 0 = ps.getD j 0 := by
  induction ps with
  | nil => intro k j _; simp
  | cons p rest ih =>
    intro k j hjk
    cases k with
    | zero => omega
    | succ k =>
      cases j with
      | zero => simp
      | succ j =>
        simp only [List.take_succ_cons, List.getD_cons_succ]
        exact ih k j (by omega)

theorem promoteLoop_eq_spec (g : RandStream) (cands : List (Finset ℕ)) (m : ℕ)
    (ps : List ℚ) :
    ∀ (l : List ℚ) (i off : ℕ) (acc : Finset (Finset ℕ)),
      (∀ j, j < l.length → l.getD j 0 = ps.getD (i + j) 0) →
      promoteLoop g cands (some m) l i off acc =
        specPromoteLoop g cands m ps l.length i off acc := by
  intro l
  induction l with
  | nil => intro i off acc _; rfl
  | cons p rest ih =>
    intro i off acc hget
    have hp : p = ps.getD i 0 := by
      have h0 := hget 0 (by simp)
      simpa using h0
    simp only [promoteLoop, specPromoteLoop, List.length_cons]
    rw [hp]
    refine ih (i + 1) _ _ (fun j hj => ?_)
    have h1 := hget (j + 1) (by simpa using Nat.succ_lt_succ hj)
    rw [List.getD_cons_succ] at h1
    rw [h1]
    congr 1
    omega

/-- C7 (amended). For `max_order = m ≥ 1` and non-empty `ps`,
`flag_complex` behaves exactly as the claim-side description
`flagComplexPsSpec` (promotion only at indices `0 … m - 2`, candidates of
order `i + 2`, probability `ps[i]`), and its result is unchanged by
replacing `ps` with any non-empty list agreeing on the first `m - 1`
entries — entries at index `m - 1` or beyond are never used.  At
`max_order = 0` the slice `ps[:-1]` makes the loop consume promotion
draws although the claimed index range is empty (see the
counterexample). -/
theorem flag_complex_ps_promotion_range (G : SGraph) (m : ℕ) (ps ps2 : List ℚ)
    (seed : Option ℕ) (g : RandStream) (hm : 1 ≤ m) (hps : ps ≠ []) (hps2 : ps2 ≠ [])
    (hagree : ps2.take (m - 1) = ps.take (m - 1)) :
    flagComplex G (some m) ps seed g = flagComplexPsSpec G m ps seed g ∧
      flagComplex G (some m) ps2 seed g = flagComplex G (some m) ps seed g := by
  have hm0 : m ≠ 0 := by omega
  have hslice : ∀ qs : List ℚ, pySliceTo qs ((m : ℤ) - 1) = qs.take (m - 1) := by
    intro qs
    rw [pySliceTo, if_pos (by omega : (0 : ℤ) ≤ (m : ℤ) - 1)]
    congr 1
    omega
  constructor
  · cases hsub : pySubfaces (maxCliquesList G) m with
    | none => simp [flagComplex, flagComplexPsSpec, if_neg hps, hm0, hsub]
    | some cands =>
      simp only [flagComplex, flagComplexPsSpec, if_neg hps, if_pos hm0, hsub, hm0,
        ne_eq, not_false_eq_true, ite_true, ite_false]
      rw [hslice ps]
      have hkey := promoteLoop_eq_spec (seedStream seed g) cands m ps
        (ps.take (m - 1)) 0 0 ∅ (fun j hj => by
          rw [Nat.zero_add]
          exact getD_take ps (m - 1) j
            (lt_of_lt_of_le hj (by rw [List.length_take]; exact min_le_left _ _)))
      rw [List.length_take] at hkey
      rw [hkey]
  · cases hsub : pySubfaces (maxCliquesList G) m with
    | none => simp [flagComplex, if_neg hps, if_neg hps2, hm0, hsub]
    | some cands =>
      simp only [flagComplex, if_neg hps, if_neg hps2, if_pos hm0, hsub, hm0,
        ne_eq, not_false_eq_true, ite_true, ite_false]
      rw [hslice ps, hslice ps2, hagree]

theorem flag_complex_ps_promotion_range_witness :
    ((1 : ℕ) ≤ 2) ∧ ([(1 : ℚ), 5].take 1 = [(1 : ℚ)].take 1) ∧
      (flagComplex ⟨{0, 1, 2}, [{0, 1}, {0, 2}, {1, 2}]⟩ (some 2) [(1 : ℚ)] none
          zeroStream =
        flagComplexPsSpec ⟨{0, 1, 2}, [{0, 1}, {0, 2}, {1, 2}]⟩ 2 [(1 : ℚ)] none
          zeroStream) ∧
      (flagComplex ⟨{0, 1, 2}, [{0, 1}, {0, 2}, {1, 2}]⟩ (some 2) [(1 : ℚ), 5] none
          zeroStream =
        flagComplex ⟨{0, 1, 2}, [{0, 1}, {0, 2}, {1, 2}]⟩ (some 2) [(1 : ℚ)] none
          zeroStream) := by
  have h := flag_complex_ps_promotion_range ⟨{0, 1, 2}, [{0, 1}, {0, 2}, {1, 2}]⟩ 2
    [(1 : ℚ)] [(1 : ℚ), 5] none zeroStream (by decide) (by decide) (by decide) (by decide)
  exact ⟨by decide, by decide, h.1, h.2⟩

/-- C7 counterexample: at `max_order = 0` the claimed promotion range
`0 … max_order - 2` is empty, so no promotion draw should be consumed;
but on the triangle graph with `ps = [0, 0]` the call consumes one
promotion draw — the slice `ps[:max_order - 1] = ps[:-1]` keeps index 0
and tests the 3-clique against `ps[0]`. -/
theorem flag_complex_max_order_zero_consumes_draw :
    (flagComplex ⟨{0, 1, 2}, [{0, 1}, {0, 2}, {1, 2}]⟩ (some 0) [(0 : ℚ), 0] none
      zeroStream).2 = 1 := by
  decide

theorem generators_downward_closed_witness :
    (({0} : Finset ℕ) ∈ (SimComplex.mk {0, 1} {{0}, {1}, {0, 1}}).simplices) ∧
    (({2} : Finset ℕ) ∈ (SimComplex.mk {0, 1, 2}
      {{0}, {1}, {0, 1}, {2}, {0, 2}, {1, 2}, {0, 1, 2}}).simplices) ∧
    (({1, 2} : Finset ℕ) ∈ (SimComplex.mk {0, 1, 2}
      {{0}, {1}, {2}, {0, 1}, {0, 2}, {1, 2}, {0, 1, 2}}).simplices) ∧
    (({1} : Finset ℕ) ∈ (SimComplex.mk {0, 1} {{0}, {1}, {0, 1}}).simplices) ∧
    (({0} : Finset ℕ) ∈ (SimComplex.mk {0, 1} {{0}, {1}}).simplices) := by
  refine ⟨?_, ?_, ?_, ?_, ?_⟩
  · exact generators_downward_closed.1 2 [(1 : ℚ)] (some 0) zeroStream _
      (by decide) {0, 1} (by decide) {0} (by decide) (by decide)
  · exact generators_downward_closed.2.1 ⟨{0, 1, 2}, [{0, 1}, {0, 2}, {1, 2}]⟩
      (some 2) [(1 : ℚ)] none zeroStream _ 1
      (by decide) {0, 1, 2} (by decide) {2} (by decide) (by decide)
  · exact generators_downward_closed.2.2.1 ⟨{0, 1, 2}, [{0, 1}, {0, 2}, {1, 2}]⟩
      none none zeroStream _
      (by decide) {0, 1, 2} (by decide) {1, 2} (by decide) (by decide)
  · exact generators_downward_closed.2.2.2.1 2 1 (some 0) zeroStream _
      (by decide) {0, 1} (by decide) {1} (by decide) (by decide)
  · exact generators_downward_closed.2.2.2.2 2 1 (some 0) (some 0) zeroStream _
      (by decide) {0} (by decide) {0} (by decide) (by decide)
